import Mathlib

/-!
Verification of the virtual concatenated file access layer
(modules/access/file.c).

The layer presents an ordered list of underlying files as a single
seekable byte stream.  We embed the stream state (struct access_sys_t
together with the access_t info fields touched by this module) as a
Lean structure, and the Read / Seek / Control / Open functions as
executable Lean functions translated line by line from the C source.

Modelling conventions:
* file descriptors are identified with their index in the file list;
  the kernel-side state of a descriptor is its byte offset
  (offsets list) and the content of the file it refers to (files list);
* the read(2) syscall on descriptor i with count n returns the next
  min(n, remaining) bytes of files[i] starting at offsets[i] and
  advances the offset; fstat(2) reports the current content length;
* machine integers (int64_t sizes and positions) are modelled as Int,
  byte counts as Nat; no arithmetic here can overflow 64 bits in the
  scenarios claimed, so no modular reduction is applied;
* the cooperative cancellation flag p_access->b_die is a Bool field of
  the state (it is only ever read by this module);
* the kfir busy-retry loop sleeps and retries while read returns 0 and
  the flag is clear; with static file contents this never terminates,
  which the embedding reports as Option.none.
-/

namespace VlcFileAccess

/-- A byte of file content. -/
abbrev Byte := Nat

/-- Number of completed reads between two periodic fstat re-validations
(INPUT_FSTAT_NB_READS from the surrounding framework headers). -/
def INPUT_FSTAT_NB_READS : Nat := 10

/-- State of one open virtual stream: access_sys_t plus the
access_t.info fields used by the module, plus the kernel-side view of
the descriptors (current offset of each, content of each file). -/
structure St where
  /-- content of each underlying file, in concatenation order -/
  files : List (List Byte)
  /-- kernel file offset of each descriptor (filev) -/
  offsets : List Nat
  /-- recorded size of each file (p_sys->sizev) -/
  sizev : List Int
  /-- index of the current file (p_sys->filep) -/
  filep : Nat
  /-- logical position (p_access->info.i_pos) -/
  i_pos : Int
  /-- logical total size (p_access->info.i_size) -/
  i_size : Int
  /-- end-of-stream flag (p_access->info.b_eof) -/
  b_eof : Bool
  /-- completed read counter (p_sys->i_nb_reads) -/
  i_nb_reads : Nat
  /-- p_sys->b_seekable -/
  b_seekable : Bool
  /-- p_sys->b_pace_control -/
  b_pace_control : Bool
  /-- p_sys->b_kfir -/
  b_kfir : Bool
  /-- cooperative cancellation flag (p_access->b_die) -/
  b_die : Bool
deriving DecidableEq

/-- Content of the file behind descriptor index i. -/
def fileAt (st : St) (i : Nat) : List Byte := st.files.getD i []

/-- Kernel offset of descriptor index i. -/
def offAt (st : St) (i : Nat) : Nat := st.offsets.getD i 0

/-- Recorded size table entry for index i (p_sys->sizev[i]). -/
def sizeAt (st : St) (i : Nat) : Int := st.sizev.getD i 0

/-- What fstat currently reports as st_size for file index i:
the present content length. -/
def fstatSize (st : St) (i : Nat) : Int := ((fileAt st i).length : Int)

/-- The periodic size re-validation block of Read (file.c lines
371-386): every INPUT_FSTAT_NB_READS completed reads, while the logical
size is nonzero, re-stat the current file and fold any size change into
the logical size and the size table. -/
def restat (st : St) : St :=
  if st.i_size ≠ 0 ∧ st.i_nb_reads % INPUT_FSTAT_NB_READS = 0 then
    if sizeAt st st.filep ≠ fstatSize st st.filep then
      { st with
          i_size := st.i_size + fstatSize st st.filep - sizeAt st st.filep,
          sizev := st.sizev.set st.filep (fstatSize st st.filep) }
    else st
  else st

/-! Read (file.c lines 305-404), with fuel bounding the EOF-chaining
recursion (the C code recurses at most filec - filep times).  The three
read strategies:
* pace-controlled: one direct read call;
* polled (not pace-controlled, not kfir): the poll loop returns 0 at
  once if the cancellation flag is set, otherwise waits for readiness
  and then reads;
* kfir busy-retry: re-reads while the result is 0 and the cancellation
  flag is clear; with static contents that loop never exits, which the
  model reports as none.
A successful call returns the bytes transferred and the new state. -/

/-- What one read(2) call on the current descriptor transfers: the
next at most n bytes of the current file from its kernel offset. -/
def readBytes (st : St) (n : Nat) : List Byte :=
  ((fileAt st st.filep).drop (offAt st st.filep)).take n

/-- State after the read call, the i_nb_reads increment and the
periodic re-stat (everything of Read before the EOF-chaining switch):
the descriptor offset advanced by the bytes transferred, the counter
bumped, restat applied. -/
def afterRead (st : St) (n : Nat) : St :=
  restat
    { st with
        offsets := st.offsets.set st.filep (offAt st st.filep + (readBytes st n).length),
        i_nb_reads := st.i_nb_reads + 1 }

/-- EOF chaining: switch to the next file (++p_sys->filep). -/
def advance (st : St) : St := { st with filep := st.filep + 1 }

/-- Report end of the whole virtual stream (info.b_eof = true, after
the back-off decrement left filep unchanged). -/
def markEof (st : St) : St := { st with b_eof := true }

/-- Successful transfer: advance the logical position by the number of
bytes transferred. -/
def advancePos (st : St) (len : Nat) : St :=
  { st with i_pos := st.i_pos + (len : Int) }

def ReadAux : Nat → St → Nat → Option (List Byte × St)
  | 0, _, _ => none
  | fuel + 1, st, n =>
    if st.b_pace_control = false ∧ st.b_kfir = false ∧ st.b_die = true then
      some ([], st)
    else if st.b_pace_control = false ∧ st.b_kfir = true ∧
            readBytes st n = [] ∧ st.b_die = false then
      none
    else if readBytes st n = [] then
      if (afterRead st n).filep + 1 < (afterRead st n).files.length then
        ReadAux fuel (advance (afterRead st n)) n
      else
        some ([], markEof (afterRead st n))
    else
      some (readBytes st n, advancePos (afterRead st n) (readBytes st n).length)

/-- Caller-facing Read.  Fuel files.length + 1 always suffices because
the EOF chain advances filep strictly at every recursive call. -/
def Read (st : St) (n : Nat) : Option (List Byte × St) :=
  ReadAux (st.files.length + 1) st n

/-- The offset-mapping loop of Seek (file.c lines 428-435):
    while (i_pos > sizev[i]) { i_pos -= sizev[i++]; assert (i < filec); }
Returns the final index and residual intra-file offset, or none when
the loop would walk past the end of the size table, i.e. when the
in-loop assertion fails (the initial assert filec > 0 is the empty-list
case). -/
def locate : Int → List Int → Option (Nat × Int)
  | _, [] => none
  | pos, s :: rest =>
    if s < pos then
      match locate (pos - s) rest with
      | none => none
      | some (i, r) => some (i + 1, r)
    else
      some (0, pos)

/-- The position Seek actually stores and maps (file.c lines 413-424).
Note that the two clamp tests compare the logical size against the
CURRENT position info.i_pos, not against the requested target — this is
translated exactly as written. -/
def seekTarget (st : St) (target : Int) : Int :=
  if st.i_size < st.i_pos then st.i_size
  else if st.i_pos < 0 then 0
  else target

/-- Seek (file.c lines 409-440).  The lseek result is not checked by
the C code; an lseek to a negative offset fails and leaves the
descriptor offset unchanged, which the model reproduces.  none models
the assertion failure in the mapping loop. -/
def Seek (st : St) (target : Int) : Option St :=
  match locate (seekTarget st target) st.sizev with
  | none => none
  | some (i, intra) =>
    some { st with
             i_pos := seekTarget st target,
             b_eof := false,
             filep := i,
             offsets := if intra < 0 then st.offsets
                        else st.offsets.set i intra.toNat }

/-- The control queries handled by Control (file.c lines 445-496). -/
inductive Query
  | canSeek | canFastseek | canPause | canControlPace
  | getMtu | getPtsDelay | setPauseState
  | getTitleInfo | setTitle | setSeekpoint | setPrivateIdState | getMeta
  | other
deriving DecidableEq

/-- Result of a control query: a boolean answer, an int answer, a
64-bit answer, plain success, or VLC_EGENERIC. -/
inductive CtrlAns
  | ansBool (b : Bool)
  | ansInt (v : Int)
  | ansInt64 (v : Int)
  | ansOk
  | ansErr
deriving DecidableEq

/-- Control (file.c lines 445-496).  cachingDelay is the configured
file-caching value in milliseconds. -/
def Control (st : St) (cachingDelay : Int) : Query → CtrlAns
  | .canSeek => .ansBool st.b_seekable
  | .canFastseek => .ansBool st.b_seekable
  | .canPause => .ansBool st.b_pace_control
  | .canControlPace => .ansBool st.b_pace_control
  | .getMtu => .ansInt 0
  | .getPtsDelay => .ansInt64 (cachingDelay * 1000)
  | .setPauseState => .ansOk
  | _ => .ansErr

/-! ## Open -/

/-- The access shortcut under which the module was invoked
(add_shortcut "file" / "stream" / "kfir"). -/
inductive Mode | file | stream | kfir
deriving DecidableEq

/-- stat type and size of a successfully opened path. -/
inductive FKind | reg | blk | chr | dir | fifo | other
deriving DecidableEq

structure PathFile where
  kind : FKind
  size : Int
deriving DecidableEq

/-- What opening one configured path yields: none when open(2) fails,
otherwise the stat information of the opened descriptor. -/
abbrev PathSpec := Option PathFile

/-- One file keeps the concatenation seekable iff it is a regular
file, a block device, or a character device of nonzero size
(negation of the flip condition at file.c lines 263-266). -/
def conforming (f : PathFile) : Bool :=
  f.kind = FKind.reg || f.kind = FKind.blk ||
    (f.kind = FKind.chr && f.size ≠ 0)

/-- A path that makes Open fail at its index: it cannot be opened, or
it resolves to a directory. -/
def badPath : PathSpec → Bool
  | none => true
  | some f => f.kind = FKind.dir

def pathConforming : PathSpec → Bool
  | none => true
  | some f => conforming f

/-- Accumulator of the Open loop (file.c lines 203-271). -/
structure OpenAcc where
  /-- descriptors currently open in the kernel -/
  openFds : Nat
  /-- descriptors stored into filev so far (p_sys->filec prefix) -/
  filec : Nat
  /-- accumulated p_access->info.i_size -/
  szSum : Int
  /-- accumulated p_sys->b_seekable -/
  seek : Bool
  /-- accumulated size table -/
  sizevAcc : List Int
deriving DecidableEq

/-- Result of Open: success with the constructed stream parameters, or
VLC_EGENERIC carrying the number of descriptors still open when the
error is returned. -/
inductive OpenResult
  | ok (sizev : List Int) (i_size : Int) (b_seekable : Bool) (filec : Nat)
  | err (openFds : Nat)
deriving DecidableEq

def OpenResult.isErr : OpenResult → Bool
  | .ok _ _ _ _ => false
  | .err _ => true

/-- The per-path loop of Open followed by the final empty-file check
(file.c lines 203-281).  On an open failure the prefix of stored
descriptors is closed by Close; a directory descriptor is closed in the
fstat loop before the same cleanup runs. -/
def openGo : List PathSpec → OpenAcc → OpenResult
  | [], acc =>
    if acc.seek = true ∧ acc.szSum = 0 then
      -- file is empty, aborting: Close closes the filec stored fds
      .err (acc.openFds - acc.filec)
    else
      .ok acc.sizevAcc acc.szSum acc.seek acc.filec
  | none :: _, acc =>
    -- open failed: filec is truncated to the stored prefix, Close
    -- closes those descriptors
    .err (acc.openFds - acc.filec)
  | some f :: rest, acc =>
    if f.kind = FKind.dir then
      -- opened (openFds + 1), detected as directory, closed again
      -- (- 1), then the stored prefix is closed
      .err ((acc.openFds + 1) - 1 - acc.filec)
    else
      openGo rest
        { openFds := acc.openFds + 1,
          filec := acc.filec + 1,
          szSum := acc.szSum + f.size,
          seek := acc.seek && conforming f,
          sizevAcc := acc.sizevAcc ++ [f.size] }

/-- Total size of a path list as the Open loop accumulates it. -/
def sizeSum (paths : List PathSpec) : Int :=
  (paths.map fun p => match p with | none => 0 | some f => f.size).sum

/-- Initial seekability from the access shortcut
(file.c lines 151-166). -/
def seekInit : Mode → Bool
  | .stream => false
  | .kfir => false
  | .file => true

/-- Open (file.c lines 134-284): mode flags, then the per-path loop. -/
def openAll (mode : Mode) (paths : List PathSpec) : OpenResult :=
  openGo paths
    { openFds := 0, filec := 0, szSum := 0,
      seek := seekInit mode, sizevAcc := [] }

/-! ## The error branch of Read -/

/-- errno values distinguished by Read's error branch. -/
def EINTR : Nat := 4
def EAGAIN : Nat := 11

/-- Observable outcome of one failing read attempt. -/
structure FailOut where
  /-- value Read returns to the caller -/
  ret : Int
  /-- whether the fatal user notification (msg_Err + intf_UserFatal)
  was emitted -/
  notifiedFatal : Bool
  /-- whether the INPUT_ERROR_SLEEP pause was inserted -/
  slept : Bool
  /-- state after the call -/
  st : St
deriving DecidableEq

/-- The tail of Read for a read attempt that returned -1 with errno e
(file.c lines 349-403): transient errno values skip the fatal
notification, every failure sleeps, the read counter and the periodic
re-stat still run, and the negative result is returned unchanged
(neither the EOF branch nor the position update fires). -/
def readFailStep (st : St) (e : Nat) : FailOut :=
  let notified := ¬ (e = EINTR ∨ e = EAGAIN)
  let st1 : St := { st with i_nb_reads := st.i_nb_reads + 1 }
  let st2 := restat st1
  { ret := -1, notifiedFatal := notified, slept := true, st := st2 }

/-- The freshly opened seekable stream over the two files with
contents abc and defgh (sizes [3, 5]) used by the specification's
boundary-crossing example. -/
def stEx : St :=
  { files := [[97, 98, 99], [100, 101, 102, 103, 104]], offsets := [0, 0],
    sizev := [3, 5], filep := 0, i_pos := 0, i_size := 8, b_eof := false,
    i_nb_reads := 0, b_seekable := true, b_pace_control := true,
    b_kfir := false, b_die := false }

/-- A freshly opened seekable single-file stream over the 3-byte file
with contents abc, positioned at 0. -/
def st3cex : St :=
  { files := [[97, 98, 99]], offsets := [0], sizev := [3], filep := 0,
    i_pos := 0, i_size := 3, b_eof := false, i_nb_reads := 0,
    b_seekable := true, b_pace_control := true, b_kfir := false,
    b_die := false }

/-- The remainder of the logical stream as seen from file index i at
intra-file offset r: the rest of that file followed by all later
files. -/
def tailBytes (st : St) (i r : Nat) : List Byte :=
  ((fileAt st i).drop r) ++ (st.files.drop (i + 1)).flatten

/-- A seekable single-file stream whose only file (one byte) has been
fully consumed: the next read hits end of stream. -/
def stW1 : St :=
  { files := [[5]], offsets := [1], sizev := [1], filep := 0,
    i_pos := 1, i_size := 1, b_eof := false, i_nb_reads := 0,
    b_seekable := true, b_pace_control := true, b_kfir := false,
    b_die := false }

/-- A kfir-mode stream with the cancellation flag already set, whose
first file is empty and whose second file holds two bytes. -/
def stK : St :=
  { files := [[], [7, 8]], offsets := [0, 0], sizev := [0, 2], filep := 0,
    i_pos := 0, i_size := 2, b_eof := false, i_nb_reads := 0,
    b_seekable := false, b_pace_control := false, b_kfir := true,
    b_die := true }

/-- A polled (stream-mode, non-kfir) stream with the cancellation flag
set. -/
def stP : St :=
  { files := [[1]], offsets := [0], sizev := [1], filep := 0,
    i_pos := 0, i_size := 1, b_eof := false, i_nb_reads := 0,
    b_seekable := false, b_pace_control := false, b_kfir := false,
    b_die := true }

/-- The state Seek stEx 5 produces: position 5, second file selected,
its descriptor repositioned to intra-offset 2. -/
def stW9 : St :=
  { stEx with i_pos := 5, b_eof := false, filep := 1, offsets := [0, 2] }

/-- The state Read stEx 3 produces: the first three bytes consumed. -/
def stR : St :=
  { stEx with offsets := [3, 0], i_pos := 3, i_nb_reads := 1 }

/-- A stream-mode (non-seekable) stream opened over an initially empty
file that has since grown to two bytes: the recorded size table and
the logical size are still zero while the ninth read has completed, so
the next read lands on the re-stat period. -/
def stC6 : St :=
  { files := [[7, 8]], offsets := [0], sizev := [0], filep := 0,
    i_pos := 0, i_size := 0, b_eof := true, i_nb_reads := 9,
    b_seekable := false, b_pace_control := false, b_kfir := false,
    b_die := false }

/-- A seekable single-file stream whose file grew from 2 to 4 bytes
since open, with the next read landing on the re-stat period. -/
def stW6 : St :=
  { files := [[1, 2, 3, 4]], offsets := [0], sizev := [2], filep := 0,
    i_pos := 0, i_size := 2, b_eof := false, i_nb_reads := 9,
    b_seekable := true, b_pace_control := true, b_kfir := false,
    b_die := false }

/-- The state Read stW6 1 produces: one byte transferred and the size
drift of the grown file folded into the size table and logical size. -/
def stW6r : St :=
  { stW6 with offsets := [1], sizev := [4], i_pos := 1, i_size := 4,
              i_nb_reads := 10 }

/-- A caller-side read loop: keep calling Read until want bytes are
collected or Read reports no progress.  This is not part of file.c; it
is the harness the specification's 8-byte example implicitly uses. -/
def readLoop : Nat → St → Nat → List Byte → Option (List Byte × St)
  | 0, st, _, acc => some (acc, st)
  | k + 1, st, want, acc =>
    if want ≤ acc.length then some (acc, st)
    else
      match Read st (want - acc.length) with
      | none => none
      | some (bytes, st') =>
        if bytes = [] then some (acc, st')
        else readLoop k st' want (acc ++ bytes)

/-! ## List helper lemmas -/

theorem getD_set_ne (l : List Nat) (i j a : Nat) (h : i ≠ j) :
    (l.set i a).getD j 0 = l.getD j 0 := by
  simp [List.getD, List.getElem?_set_ne h]

theorem getD_set_self (l : List Nat) (i a : Nat) (h : i < l.length) :
    (l.set i a).getD i 0 = a := by
  simp [List.getD, List.getElem?_set_self, h]

theorem set_getD_self : ∀ (l : List Nat) (i : Nat), l.set i (l.getD i 0) = l
  | [], _ => by simp
  | a :: t, 0 => rfl
  | a :: t, i + 1 => by
    show a :: t.set i ((a :: t).getD (i + 1) 0) = a :: t
    rw [List.getD_cons_succ, set_getD_self t i]

/-! ## Frame facts about the Read sub-steps -/

theorem restat_files (st : St) : (restat st).files = st.files := by
  unfold restat; split_ifs <;> rfl

theorem restat_offsets (st : St) : (restat st).offsets = st.offsets := by
  unfold restat; split_ifs <;> rfl

theorem restat_filep (st : St) : (restat st).filep = st.filep := by
  unfold restat; split_ifs <;> rfl

theorem restat_eof (st : St) : (restat st).b_eof = st.b_eof := by
  unfold restat; split_ifs <;> rfl

theorem restat_pos (st : St) : (restat st).i_pos = st.i_pos := by
  unfold restat; split_ifs <;> rfl

theorem restat_nb (st : St) : (restat st).i_nb_reads = st.i_nb_reads := by
  unfold restat; split_ifs <;> rfl

theorem restat_pace (st : St) : (restat st).b_pace_control = st.b_pace_control := by
  unfold restat; split_ifs <;> rfl

theorem restat_kfir (st : St) : (restat st).b_kfir = st.b_kfir := by
  unfold restat; split_ifs <;> rfl

theorem restat_die (st : St) : (restat st).b_die = st.b_die := by
  unfold restat; split_ifs <;> rfl

theorem afterRead_files (st : St) (n : Nat) : (afterRead st n).files = st.files := by
  unfold afterRead; rw [restat_files]

theorem afterRead_filep (st : St) (n : Nat) : (afterRead st n).filep = st.filep := by
  unfold afterRead; rw [restat_filep]

theorem afterRead_offsets (st : St) (n : Nat) :
    (afterRead st n).offsets =
      st.offsets.set st.filep (offAt st st.filep + (readBytes st n).length) := by
  unfold afterRead; rw [restat_offsets]

theorem afterRead_offsets_nil (st : St) (n : Nat) (h : readBytes st n = []) :
    (afterRead st n).offsets = st.offsets := by
  rw [afterRead_offsets, h]
  simpa [offAt] using set_getD_self st.offsets st.filep

theorem afterRead_pace (st : St) (n : Nat) :
    (afterRead st n).b_pace_control = st.b_pace_control := by
  unfold afterRead; rw [restat_pace]

theorem afterRead_eof (st : St) (n : Nat) : (afterRead st n).b_eof = st.b_eof := by
  unfold afterRead; rw [restat_eof]

theorem afterRead_pos (st : St) (n : Nat) : (afterRead st n).i_pos = st.i_pos := by
  unfold afterRead; rw [restat_pos]

theorem afterRead_kfir (st : St) (n : Nat) : (afterRead st n).b_kfir = st.b_kfir := by
  unfold afterRead; rw [restat_kfir]

theorem afterRead_die (st : St) (n : Nat) : (afterRead st n).b_die = st.b_die := by
  unfold afterRead; rw [restat_die]

theorem advance_files (st : St) : (advance st).files = st.files := rfl

theorem advance_filep (st : St) : (advance st).filep = st.filep + 1 := rfl

theorem advance_offsets (st : St) : (advance st).offsets = st.offsets := rfl

theorem advance_pace (st : St) : (advance st).b_pace_control = st.b_pace_control := rfl

theorem advance_eof (st : St) : (advance st).b_eof = st.b_eof := rfl

theorem markEof_eof (st : St) : (markEof st).b_eof = true := rfl

theorem markEof_filep (st : St) : (markEof st).filep = st.filep := rfl

theorem markEof_offsets (st : St) : (markEof st).offsets = st.offsets := rfl

theorem advancePos_filep (st : St) (m : Nat) : (advancePos st m).filep = st.filep := rfl

theorem advancePos_offsets (st : St) (m : Nat) : (advancePos st m).offsets = st.offsets := rfl

theorem advancePos_eof (st : St) (m : Nat) : (advancePos st m).b_eof = st.b_eof := rfl

/-! ## Unfolding and chaining behavior of Read -/

theorem tailBytes_congr (s1 s2 : St) (h : s1.files = s2.files) (i r : Nat) :
    tailBytes s1 i r = tailBytes s2 i r := by
  unfold tailBytes fileAt
  rw [h]

theorem take_app_min (A B : List Byte) (n : Nat) :
    (A ++ B).take (min n A.length) = A.take n := by
  rcases Nat.le_total n A.length with h | h
  · rw [Nat.min_eq_left h, List.take_append_of_le_length h]
  · rw [Nat.min_eq_right h, List.take_left, List.take_of_length_le h]

theorem tailBytes_step (st : St) (i : Nat) (h : i + 1 < st.files.length) :
    (st.files.drop (i + 1)).flatten = tailBytes st (i + 1) 0 := by
  unfold tailBytes fileAt
  rw [List.getD_eq_getElem st.files [] h, List.drop_zero,
      List.drop_eq_getElem_cons h, List.flatten_cons]

theorem ReadAux_succ (fuel : Nat) (st : St) (n : Nat) :
    ReadAux (fuel + 1) st n =
      if st.b_pace_control = false ∧ st.b_kfir = false ∧ st.b_die = true then
        some ([], st)
      else if st.b_pace_control = false ∧ st.b_kfir = true ∧
              readBytes st n = [] ∧ st.b_die = false then
        none
      else if readBytes st n = [] then
        if (afterRead st n).filep + 1 < (afterRead st n).files.length then
          ReadAux fuel (advance (afterRead st n)) n
        else
          some ([], markEof (afterRead st n))
      else
        some (readBytes st n, advancePos (afterRead st n) (readBytes st n).length) := rfl

theorem ReadAux_pace (fuel : Nat) (st : St) (n : Nat) (hp : st.b_pace_control = true) :
    ReadAux (fuel + 1) st n =
      if readBytes st n = [] then
        if (afterRead st n).filep + 1 < (afterRead st n).files.length then
          ReadAux fuel (advance (afterRead st n)) n
        else
          some ([], markEof (afterRead st n))
      else
        some (readBytes st n, advancePos (afterRead st n) (readBytes st n).length) := by
  rw [ReadAux_succ, if_neg (by simp [hp]), if_neg (by simp [hp])]

/-- EOF chaining produces exactly the bytes of the logical remainder
from the current file and offset: a pace-controlled Read whose
descriptors beyond the current file rest at offset 0 returns an initial
segment of the remaining logical stream, and makes progress whenever
the remainder is nonempty and the request is positive. -/
theorem readAux_chain (fuel : Nat) : ∀ (st : St) (n : Nat),
    st.b_pace_control = true →
    st.filep < st.files.length →
    st.files.length - st.filep < fuel →
    (∀ j, st.filep < j → offAt st j = 0) →
    ∃ bytes st', ReadAux fuel st n = some (bytes, st') ∧
      (∃ k, k ≤ n ∧ bytes = (tailBytes st st.filep (offAt st st.filep)).take k) ∧
      (0 < n → tailBytes st st.filep (offAt st st.filep) ≠ [] → bytes ≠ []) := by
  induction fuel with
  | zero => intro st n _ hlt hfuel _; omega
  | succ m ih =>
    intro st n hp hlt hfuel hoff
    rw [ReadAux_pace m st n hp]
    by_cases hb : readBytes st n = []
    · rw [if_pos hb]
      by_cases hnext : (afterRead st n).filep + 1 < (afterRead st n).files.length
      · rw [if_pos hnext]
        have hnext' : st.filep + 1 < st.files.length := by
          rwa [afterRead_filep, afterRead_files] at hnext
        have h3files : (advance (afterRead st n)).files = st.files := by
          rw [advance_files, afterRead_files]
        have h3filep : (advance (afterRead st n)).filep = st.filep + 1 := by
          rw [advance_filep, afterRead_filep]
        have h3off : (advance (afterRead st n)).offsets = st.offsets := by
          rw [advance_offsets, afterRead_offsets_nil st n hb]
        have h3pace : (advance (afterRead st n)).b_pace_control = st.b_pace_control := by
          rw [advance_pace, afterRead_pace]
        have hoffAt : ∀ j, offAt (advance (afterRead st n)) j = offAt st j := by
          intro j
          unfold offAt
          rw [h3off]
        obtain ⟨bytes, st2, heq, ⟨k, hk, hbytes⟩, hne⟩ :=
          ih (advance (afterRead st n)) n
            (by rw [h3pace, hp]) (by rw [h3filep, h3files]; exact hnext')
            (by rw [h3filep, h3files]; omega)
            (by
              intro j hj
              rw [h3filep] at hj
              rw [hoffAt]
              exact hoff j (by omega))
        rw [h3filep, hoffAt, hoff (st.filep + 1) (by omega),
            tailBytes_congr _ st h3files] at hbytes hne
        by_cases hA : (fileAt st st.filep).drop (offAt st st.filep) = []
        · have htaileq : tailBytes st st.filep (offAt st st.filep) =
              tailBytes st (st.filep + 1) 0 := by
            rw [← tailBytes_step st st.filep hnext']
            unfold tailBytes
            rw [hA, List.nil_append]
          refine ⟨bytes, st2, heq, ⟨k, hk, by rw [htaileq]; exact hbytes⟩, ?_⟩
          intro hn htne
          exact hne hn (by rw [← htaileq]; exact htne)
        · have hn0 : n = 0 := by
            rcases List.take_eq_nil_iff.mp hb with h | h
            · exact h
            · exact absurd h hA
          refine ⟨bytes, st2, heq, ⟨0, Nat.zero_le n, ?_⟩, by omega⟩
          have hk0 : k = 0 := by omega
          rw [hbytes, hk0]
          simp
      · rw [if_neg hnext]
        refine ⟨[], _, rfl, ⟨0, Nat.zero_le n, by simp⟩, ?_⟩
        intro hn htne
        exfalso
        have hA : (fileAt st st.filep).drop (offAt st st.filep) = [] := by
          rcases List.take_eq_nil_iff.mp hb with h | h
          · omega
          · exact h
        have hge : st.files.length ≤ st.filep + 1 := by
          rw [afterRead_filep, afterRead_files] at hnext
          omega
        apply htne
        unfold tailBytes
        rw [hA, List.drop_eq_nil_of_le hge]
        simp
    · rw [if_neg hb]
      refine ⟨readBytes st n, _, rfl,
        ⟨min n ((List.drop (offAt st st.filep) (fileAt st st.filep)).length),
         Nat.min_le_left _ _, ?_⟩, fun _ _ => hb⟩
      unfold tailBytes
      rw [take_app_min]
      rfl

theorem markEof_files (st : St) : (markEof st).files = st.files := rfl

theorem advancePos_files (st : St) (m : Nat) : (advancePos st m).files = st.files := rfl

theorem advance_kfir (st : St) : (advance st).b_kfir = st.b_kfir := rfl

theorem advance_die (st : St) : (advance st).b_die = st.b_die := rfl

theorem fileAt_adv (st : St) (n : Nat) (j : Nat) :
    fileAt (advance (afterRead st n)) j = fileAt st j := by
  unfold fileAt
  rw [advance_files, afterRead_files]

theorem offAt_adv (st : St) (n : Nat) (h : readBytes st n = []) (j : Nat) :
    offAt (advance (afterRead st n)) j = offAt st j := by
  unfold offAt
  rw [advance_offsets, afterRead_offsets_nil st n h]

/-- If a Read call returns with the eof flag newly set, then the bytes
are zero, the current index ends on the last file, and the read of that
last file at its pre-call offset transferred nothing. -/
theorem readAux_eof (fuel : Nat) : ∀ (st : St) (n : Nat) (bytes : List Byte) (st' : St),
    ReadAux fuel st n = some (bytes, st') →
    st.filep < st.files.length →
    st'.b_eof = true → st.b_eof = false →
    bytes = [] ∧ st'.filep + 1 = st.files.length ∧
    ((fileAt st (st.files.length - 1)).drop (offAt st (st.files.length - 1))).take n = [] := by
  induction fuel with
  | zero => intro st n bytes st' heq; exact Option.noConfusion heq
  | succ m ih =>
    intro st n bytes st' heq hlt heof' heof
    rw [ReadAux_succ] at heq
    by_cases hc1 : st.b_pace_control = false ∧ st.b_kfir = false ∧ st.b_die = true
    · rw [if_pos hc1] at heq
      simp only [Option.some.injEq, Prod.mk.injEq] at heq
      obtain ⟨hb1, hs1⟩ := heq
      rw [← hs1] at heof'
      rw [heof] at heof'
      exact Bool.noConfusion heof'
    · rw [if_neg hc1] at heq
      by_cases hc2 : st.b_pace_control = false ∧ st.b_kfir = true ∧
          readBytes st n = [] ∧ st.b_die = false
      · rw [if_pos hc2] at heq
        exact Option.noConfusion heq
      · rw [if_neg hc2] at heq
        by_cases hb : readBytes st n = []
        · rw [if_pos hb] at heq
          by_cases hnx : (afterRead st n).filep + 1 < (afterRead st n).files.length
          · rw [if_pos hnx] at heq
            have hnx' : st.filep + 1 < st.files.length := by
              rwa [afterRead_filep, afterRead_files] at hnx
            have h3eof : (advance (afterRead st n)).b_eof = false := by
              rw [advance_eof, afterRead_eof]
              exact heof
            obtain ⟨hby, hfp, hta⟩ := ih (advance (afterRead st n)) n bytes st' heq
              (by rw [advance_filep, afterRead_filep, advance_files, afterRead_files]
                  exact hnx')
              heof' h3eof
            refine ⟨hby, ?_, ?_⟩
            · rwa [advance_files, afterRead_files] at hfp
            · rwa [advance_files, afterRead_files, fileAt_adv, offAt_adv st n hb] at hta
          · rw [if_neg hnx] at heq
            simp only [Option.some.injEq, Prod.mk.injEq] at heq
            obtain ⟨hb1, hs1⟩ := heq
            have hge : st.files.length ≤ st.filep + 1 := by
              rw [afterRead_filep, afterRead_files] at hnx
              omega
            have hfp : st'.filep = st.filep := by
              rw [← hs1, markEof_filep, afterRead_filep]
            have hl1 : st.files.length - 1 = st.filep := by omega
            refine ⟨hb1.symm, by omega, ?_⟩
            rw [hl1]
            exact hb
        · rw [if_neg hb] at heq
          simp only [Option.some.injEq, Prod.mk.injEq] at heq
          obtain ⟨hb1, hs1⟩ := heq
          rw [← hs1, advancePos_eof, afterRead_eof, heof] at heof'
          exact Bool.noConfusion heof'

/-- The current-file index never decreases across Read. -/
theorem readAux_filep_mono (fuel : Nat) : ∀ (st : St) (n : Nat) (bytes : List Byte) (st' : St),
    ReadAux fuel st n = some (bytes, st') → st.filep ≤ st'.filep := by
  induction fuel with
  | zero => intro st n bytes st' heq; exact Option.noConfusion heq
  | succ m ih =>
    intro st n bytes st' heq
    rw [ReadAux_succ] at heq
    by_cases hc1 : st.b_pace_control = false ∧ st.b_kfir = false ∧ st.b_die = true
    · rw [if_pos hc1] at heq
      simp only [Option.some.injEq, Prod.mk.injEq] at heq
      rw [← heq.2]
    · rw [if_neg hc1] at heq
      by_cases hc2 : st.b_pace_control = false ∧ st.b_kfir = true ∧
          readBytes st n = [] ∧ st.b_die = false
      · rw [if_pos hc2] at heq
        exact Option.noConfusion heq
      · rw [if_neg hc2] at heq
        by_cases hb : readBytes st n = []
        · rw [if_pos hb] at heq
          by_cases hnx : (afterRead st n).filep + 1 < (afterRead st n).files.length
          · rw [if_pos hnx] at heq
            have := ih _ n bytes st' heq
            rw [advance_filep, afterRead_filep] at this
            omega
          · rw [if_neg hnx] at heq
            simp only [Option.some.injEq, Prod.mk.injEq] at heq
            rw [← heq.2, markEof_filep, afterRead_filep]
        · rw [if_neg hb] at heq
          simp only [Option.some.injEq, Prod.mk.injEq] at heq
          rw [← heq.2, advancePos_filep, afterRead_filep]

/-- In the kfir busy-retry mode with the cancellation flag set, Read
always returns (the flag breaks every retry loop on the way). -/
theorem readAux_kfir_die (fuel : Nat) : ∀ (st : St) (n : Nat),
    st.b_pace_control = false → st.b_kfir = true → st.b_die = true →
    st.filep < st.files.length →
    st.files.length - st.filep < fuel →
    (ReadAux fuel st n).isSome = true := by
  induction fuel with
  | zero => intro st n _ _ _ hlt hfuel; omega
  | succ m ih =>
    intro st n hp hk hd hlt hfuel
    rw [ReadAux_succ]
    rw [if_neg (by simp [hk]), if_neg (by simp [hd])]
    by_cases hb : readBytes st n = []
    · rw [if_pos hb]
      by_cases hnx : (afterRead st n).filep + 1 < (afterRead st n).files.length
      · rw [if_pos hnx]
        have hnx' : st.filep + 1 < st.files.length := by
          rwa [afterRead_filep, afterRead_files] at hnx
        apply ih
        · rw [advance_pace, afterRead_pace]; exact hp
        · rw [advance_kfir, afterRead_kfir]; exact hk
        · rw [advance_die, afterRead_die]; exact hd
        · rw [advance_filep, afterRead_filep, advance_files, afterRead_files]; exact hnx'
        · rw [advance_filep, afterRead_filep, advance_files, afterRead_files]; omega
      · rw [if_neg hnx]; rfl
    · rw [if_neg hb]; rfl

/-- Frame property of Read: files are untouched, every descriptor
other than the final current one keeps its offset, and a successful
nonzero transfer reads the final current file at the offset its
descriptor already had, advancing only that offset by the transfer
length. -/
theorem readAux_frame (fuel : Nat) : ∀ (st : St) (n : Nat) (bytes : List Byte) (st' : St),
    ReadAux fuel st n = some (bytes, st') →
    st.filep < st.files.length →
    st.offsets.length = st.files.length →
    st'.files = st.files ∧
    (∀ j, j ≠ st'.filep → offAt st' j = offAt st j) ∧
    (bytes ≠ [] →
      bytes = ((fileAt st st'.filep).drop (offAt st st'.filep)).take n ∧
      offAt st' st'.filep = offAt st st'.filep + bytes.length) := by
  induction fuel with
  | zero => intro st n bytes st' heq; exact Option.noConfusion heq
  | succ m ih =>
    intro st n bytes st' heq hlt hlen
    rw [ReadAux_succ] at heq
    by_cases hc1 : st.b_pace_control = false ∧ st.b_kfir = false ∧ st.b_die = true
    · rw [if_pos hc1] at heq
      simp only [Option.some.injEq, Prod.mk.injEq] at heq
      obtain ⟨hb1, hs1⟩ := heq
      subst hs1
      exact ⟨rfl, fun j _ => rfl, fun hne => absurd hb1.symm hne⟩
    · rw [if_neg hc1] at heq
      by_cases hc2 : st.b_pace_control = false ∧ st.b_kfir = true ∧
          readBytes st n = [] ∧ st.b_die = false
      · rw [if_pos hc2] at heq
        exact Option.noConfusion heq
      · rw [if_neg hc2] at heq
        by_cases hb : readBytes st n = []
        · rw [if_pos hb] at heq
          by_cases hnx : (afterRead st n).filep + 1 < (afterRead st n).files.length
          · rw [if_pos hnx] at heq
            have hnx' : st.filep + 1 < st.files.length := by
              rwa [afterRead_filep, afterRead_files] at hnx
            obtain ⟨hfi, hfr, hdata⟩ := ih (advance (afterRead st n)) n bytes st' heq
              (by rw [advance_filep, afterRead_filep, advance_files, afterRead_files]
                  exact hnx')
              (by
                rw [advance_files, afterRead_files, advance_offsets, afterRead_offsets,
                  List.length_set]
                exact hlen)
            rw [advance_files, afterRead_files] at hfi
            refine ⟨hfi, ?_, ?_⟩
            · intro j hj
              rw [hfr j hj, offAt_adv st n hb]
            · intro hne
              obtain ⟨h1, h2⟩ := hdata hne
              rw [fileAt_adv, offAt_adv st n hb] at h1
              rw [offAt_adv st n hb] at h2
              exact ⟨h1, h2⟩
          · rw [if_neg hnx] at heq
            simp only [Option.some.injEq, Prod.mk.injEq] at heq
            obtain ⟨hb1, hs1⟩ := heq
            subst hs1
            refine ⟨?_, ?_, fun hne => absurd hb1.symm hne⟩
            · rw [markEof_files, afterRead_files]
            · intro j _
              show offAt (markEof (afterRead st n)) j = offAt st j
              unfold offAt
              rw [markEof_offsets, afterRead_offsets_nil st n hb]
        · rw [if_neg hb] at heq
          simp only [Option.some.injEq, Prod.mk.injEq] at heq
          obtain ⟨hb1, hs1⟩ := heq
          subst hs1
          have hfp : (advancePos (afterRead st n) (readBytes st n).length).filep = st.filep := by
            rw [advancePos_filep, afterRead_filep]
          refine ⟨?_, ?_, ?_⟩
          · rw [advancePos_files, afterRead_files]
          · intro j hj
            rw [hfp] at hj
            unfold offAt
            rw [advancePos_offsets, afterRead_offsets]
            exact getD_set_ne st.offsets st.filep j _ (fun h => hj (h.symm ▸ rfl))
          · intro _
            rw [hfp]
            constructor
            · exact hb1.symm
            · unfold offAt
              rw [advancePos_offsets, afterRead_offsets, ← hb1]
              exact getD_set_self st.offsets st.filep _ (by rw [hlen]; exact hlt)

/-! ## Decomposing the logical stream -/

theorem flatten_drop_aux : ∀ (files : List (List Byte)) (i r : Nat),
    i < files.length → r ≤ (files.getD i []).length →
    files.flatten.drop (((files.take i).map List.length).sum + r) =
      ((files.getD i []).drop r) ++ (files.drop (i + 1)).flatten := by
  intro files
  induction files with
  | nil => intro i r h _; simp at h
  | cons f fs ih =>
    intro i r hi hr
    cases i with
    | zero =>
      simp only [List.take_zero, List.map_nil, List.sum_nil, Nat.zero_add,
        List.flatten_cons, List.getD_cons_zero] at hr ⊢
      rw [List.drop_append_of_le_length hr]
      simp
    | succ i' =>
      simp only [List.take_succ_cons, List.map_cons, List.sum_cons,
        List.flatten_cons, List.getD_cons_succ] at hr ⊢
      rw [Nat.add_assoc, List.drop_append]
      exact ih i' r (by simpa using hi) hr

theorem flatten_drop_tail (st : St) (i r : Nat) (hi : i < st.files.length)
    (hr : r ≤ (fileAt st i).length) :
    st.files.flatten.drop (((st.files.take i).map List.length).sum + r) =
      tailBytes st i r :=
  flatten_drop_aux st.files i r hi hr

theorem sum_map_cast : ∀ (files : List (List Byte)),
    (files.map (fun f => (f.length : Int))).sum =
      (((files.map List.length).sum : Nat) : Int) := by
  intro files
  induction files with
  | nil => simp
  | cons f fs ih => simp [ih]

theorem sizev_getD (st : St) (i : Nat)
    (h2 : st.sizev = st.files.map (fun f => (f.length : Int)))
    (hi : i < st.files.length) :
    st.sizev.getD i 0 = ((fileAt st i).length : Int) := by
  rw [h2]
  unfold fileAt
  rw [List.getD_eq_getElem _ 0 (by simpa using hi), List.getD_eq_getElem _ [] hi,
    List.getElem_map]

theorem sizev_take_sum (st : St) (i : Nat)
    (h2 : st.sizev = st.files.map (fun f => (f.length : Int))) :
    (st.sizev.take i).sum = ((((st.files.take i).map List.length).sum : Nat) : Int) := by
  rw [h2, ← List.map_take, sum_map_cast]

theorem sizev_sum_flatten (st : St)
    (h2 : st.sizev = st.files.map (fun f => (f.length : Int))) :
    st.sizev.sum = ((st.files.flatten.length : Nat) : Int) := by
  rw [h2, sum_map_cast, List.length_flatten]

/-! ## Correctness of the offset-mapping loop -/

/-- What the mapping loop computes when it succeeds: a residual offset
within the located entry, an in-bounds index, and the decomposition of
the target as prior sizes plus residual. -/
theorem locate_spec : ∀ (sizes : List Int) (p : Int) (i : Nat) (r : Int),
    0 ≤ p → locate p sizes = some (i, r) →
    0 ≤ r ∧ r ≤ sizes.getD i 0 ∧ i < sizes.length ∧ (sizes.take i).sum + r = p := by
  intro sizes
  induction sizes with
  | nil => intro p i r _ h; simp [locate] at h
  | cons s rest ih =>
    intro p i r hp h
    simp only [locate] at h
    by_cases hc : s < p
    · rw [if_pos hc] at h
      cases hrec : locate (p - s) rest with
      | none => rw [hrec] at h; exact Option.noConfusion h
      | some pr =>
        obtain ⟨i', r'⟩ := pr
        rw [hrec] at h
        simp only [Option.some.injEq, Prod.mk.injEq] at h
        obtain ⟨hi, hr⟩ := h
        have hspec := ih (p - s) i' r' (by omega) hrec
        subst hi
        subst hr
        refine ⟨hspec.1, ?_, ?_, ?_⟩
        · simpa [List.getD_cons_succ] using hspec.2.1
        · simpa using hspec.2.2.1
        · have := hspec.2.2.2
          simp only [List.take_succ_cons, List.sum_cons]
          omega
    · rw [if_neg hc] at h
      simp only [Option.some.injEq, Prod.mk.injEq] at h
      obtain ⟨hi, hr⟩ := h
      subst hi
      subst hr
      exact ⟨hp, by simpa using not_lt.mp hc, by simp, by simp⟩

/-- The mapping loop succeeds for every target within the total size of
a nonempty table of nonnegative sizes. -/
theorem locate_total : ∀ (sizes : List Int) (p : Int),
    (∀ s ∈ sizes, 0 ≤ s) → 0 ≤ p → p ≤ sizes.sum → sizes ≠ [] →
    ∃ i r, locate p sizes = some (i, r) := by
  intro sizes
  induction sizes with
  | nil => intro p _ _ _ h; exact absurd rfl h
  | cons s rest ih =>
    intro p hnn hp hsum _
    by_cases hc : s < p
    · have hrest : rest ≠ [] := by
        intro he
        subst he
        simp only [List.sum_cons, List.sum_nil, add_zero] at hsum
        omega
      have hsum' : p - s ≤ rest.sum := by
        simp only [List.sum_cons] at hsum
        omega
      obtain ⟨i, r, hl⟩ :=
        ih (p - s) (fun x hx => hnn x (List.mem_cons_of_mem s hx)) (by omega) hsum' hrest
      exact ⟨i + 1, r, by simp [locate, if_pos hc, hl]⟩
    · exact ⟨0, p, by simp [locate, if_neg hc]⟩

/-- C10: for every seek target t with 0 ≤ t ≤ logical size, where the
size table has N ≥ 1 nonnegative entries summing to the logical size,
the offset-mapping loop of Seek terminates with an index strictly below
N, so all size-table and descriptor-table accesses are in bounds and
the in-loop assertion holds (a failing assertion or out-of-bounds
access is the none result of locate, excluded here), and Seek itself
returns successfully positioned on that index. -/
theorem c10_locate_in_bounds (st : St) (t : Int)
    (hN : 1 ≤ st.sizev.length)
    (hnn : ∀ s ∈ st.sizev, 0 ≤ s)
    (hsz : st.i_size = st.sizev.sum)
    (ht0 : 0 ≤ t) (ht1 : t ≤ st.i_size)
    (hp0 : 0 ≤ st.i_pos) (hp1 : st.i_pos ≤ st.i_size) :
    ∃ i r, locate t st.sizev = some (i, r) ∧ i < st.sizev.length ∧
      ∃ st', Seek st t = some st' ∧ st'.filep = i := by
  have hne : st.sizev ≠ [] := by
    intro h
    rw [h] at hN
    simp at hN
  obtain ⟨i, r, hl⟩ := locate_total st.sizev t hnn ht0 (hsz ▸ ht1) hne
  have hspec := locate_spec st.sizev t i r ht0 hl
  refine ⟨i, r, hl, hspec.2.2.1, ?_⟩
  have ht : seekTarget st t = t := by
    unfold seekTarget
    rw [if_neg (not_lt.mpr hp1), if_neg (not_lt.mpr hp0)]
  unfold Seek
  rw [ht, hl]
  exact ⟨_, rfl, rfl⟩

/-- C10 witness. -/
theorem c10_witness :
    ∃ i r, locate 4 stEx.sizev = some (i, r) ∧ i < stEx.sizev.length ∧
      ∃ st', Seek stEx 4 = some st' ∧ st'.filep = i :=
  c10_locate_in_bounds stEx 4 (by decide) (by decide) (by decide) (by decide)
    (by decide) (by decide) (by decide)

/-! ## C3: the clamp in Seek tests the current position, not the target -/

/-- C3 (code bug): the claim says Seek clamps the target into
[0, logical_size].  The code instead compares info.i_pos — the current
position — against the size, so with the stream at position 0 a
negative target -5 is stored unclamped as the new logical position, and
the past-end target 100 is passed unclamped to the mapping loop, which
walks off the size table and violates its own assertion (the none
result). -/
theorem c3_seek_unclamped :
    ((Seek st3cex (-5)).map fun s => s.i_pos) = some (-5) ∧
    Seek st3cex 100 = none ∧ ((-5 : Int) ≠ 0) :=
  ⟨by decide, by decide, by decide⟩

/-! ## C1: Seek then Read returns the logical bytes at the target -/

/-- C1 counterexample: on the seekable [3,5] stream, after the call
sequence Seek 5; Seek 3, a Read of 8 bytes returns the bytes
[102, 103, 104] (fgh), not the logical concatenation starting at
offset 3 (which begins 100, 101, 102 — def...): Seek 5 left the second
file's descriptor at intra-offset 2, Seek 3 repositioned only the
first file's descriptor, and the EOF advance in Read then read the
second file from its stale offset. -/
theorem c1_cex :
    ((Seek stEx 5).bind fun s1 => (Seek s1 3).bind fun s2 =>
        (Read s2 8).map Prod.fst) = some [102, 103, 104] ∧
    some [102, 103, 104] ≠ some ((stEx.files.flatten.drop 3).take 3) :=
  ⟨by decide, by decide⟩

/-- C1 (amended): for a well-formed seekable pace-controlled stream
whose size table matches the file contents, and any target
0 ≤ p ≤ logical size, if the descriptors of the files after the one
containing p rest at their file start (as immediately after Open),
then Seek(p) followed by Read returns an initial segment of the
logical concatenation starting at offset p, and a nonzero request
below the logical size transfers at least one byte.  The second
conjunct is the specification's boundary example: on the fresh [3,5]
stream with contents abc / defgh, reading 8 bytes from offset 0 in a
read loop yields abcdefgh. -/
theorem c1_seek_then_read :
    (∀ (st : St) (p : Int) (n : Nat),
      st.b_pace_control = true →
      st.sizev = st.files.map (fun f => (f.length : Int)) →
      st.i_size = st.sizev.sum →
      st.offsets.length = st.files.length →
      st.files ≠ [] →
      0 ≤ st.i_pos → st.i_pos ≤ st.i_size →
      0 ≤ p → p ≤ st.i_size →
      (∀ li off, locate p st.sizev = some (li, off) → ∀ j, li < j → offAt st j = 0) →
      ∃ st1 bytes st', Seek st p = some st1 ∧ Read st1 n = some (bytes, st') ∧
        (∃ k, k ≤ n ∧ bytes = (st.files.flatten.drop p.toNat).take k) ∧
        (0 < n → p < st.i_size → bytes ≠ [])) ∧
    (readLoop 8 stEx 8 []).map Prod.fst = some [97, 98, 99, 100, 101, 102, 103, 104] := by
  constructor
  · intro st p n hp h2 h3 hlen hne0 hp0 hp1 hq0 hq1 h9
    have hlensz : st.sizev.length = st.files.length := by rw [h2]; simp
    have hnn : ∀ s ∈ st.sizev, 0 ≤ s := by
      intro s hs
      rw [h2] at hs
      obtain ⟨f, _, rfl⟩ := List.mem_map.mp hs
      positivity
    have hnesz : st.sizev ≠ [] := by
      intro h
      apply hne0
      have := hlensz
      rw [h] at this
      simpa using this.symm
    obtain ⟨li, off, hl⟩ := locate_total st.sizev p hnn hq0 (h3 ▸ hq1) hnesz
    obtain ⟨hoff0, hoffle, hli, hsum⟩ := locate_spec st.sizev p li off hq0 hl
    have hlif : li < st.files.length := by rw [← hlensz]; exact hli
    have hst : seekTarget st p = p := by
      unfold seekTarget
      rw [if_neg (not_lt.mpr hp1), if_neg (not_lt.mpr hp0)]
    have hseek : Seek st p = some
        { st with i_pos := p, b_eof := false, filep := li,
                  offsets := st.offsets.set li off.toNat } := by
      unfold Seek
      rw [hst, hl]
      show some
        { st with i_pos := p, b_eof := false, filep := li,
                  offsets := if off < 0 then st.offsets else st.offsets.set li off.toNat } =
        some { st with i_pos := p, b_eof := false, filep := li,
                       offsets := st.offsets.set li off.toNat }
      rw [if_neg (not_lt.mpr hoff0)]
    set stS : St := { st with i_pos := p, b_eof := false, filep := li,
                              offsets := st.offsets.set li off.toNat } with hstS
    have hSfiles : stS.files = st.files := rfl
    have hSfilep : stS.filep = li := rfl
    have hSpace : stS.b_pace_control = true := hp
    have hSoffAt : offAt stS li = off.toNat := by
      unfold offAt
      show (st.offsets.set li off.toNat).getD li 0 = off.toNat
      exact getD_set_self st.offsets li off.toNat (by rw [hlen]; exact hlif)
    obtain ⟨bytes, st', heq, ⟨k, hk, hbytes⟩, hnemp⟩ :=
      readAux_chain (stS.files.length + 1) stS n hSpace
        (by rw [hSfilep, hSfiles]; exact hlif)
        (by omega)
        (by
          intro j hj
          rw [hSfilep] at hj
          unfold offAt
          show (st.offsets.set li off.toNat).getD j 0 = 0
          rw [getD_set_ne st.offsets li j off.toNat (by omega)]
          exact h9 li off hl j hj)
    rw [hSfilep, hSoffAt] at hbytes hnemp
    have hrle : off.toNat ≤ (fileAt st li).length := by
      have := sizev_getD st li h2 hlif
      omega
    have htail : st.files.flatten.drop p.toNat = tailBytes st li off.toNat := by
      have hs1 := sizev_take_sum st li h2
      have hp2 : p.toNat = (((st.files.take li).map List.length).sum : Nat) + off.toNat := by
        omega
      rw [hp2]
      exact flatten_drop_tail st li off.toNat hlif hrle
    have htail2 : tailBytes stS li off.toNat = tailBytes st li off.toNat :=
      tailBytes_congr stS st hSfiles li off.toNat
    refine ⟨stS, bytes, st', hseek, heq, ⟨k, hk, ?_⟩, ?_⟩
    · rw [htail, ← htail2]
      exact hbytes
    · intro hn hplt
      apply hnemp hn
      rw [htail2, ← htail]
      intro hcon
      have hlen2 : st.files.flatten.length ≤ p.toNat := by
        have hld : (st.files.flatten.drop p.toNat).length =
            st.files.flatten.length - p.toNat :=
          List.length_drop _ _
        rw [hcon] at hld
        simp only [List.length_nil] at hld
        omega
      have := sizev_sum_flatten st h2
      omega
  · decide

/-! ## C2: EOF is reported only after the last file reads zero -/

/-- C2 (confirmed): Read reports end-of-stream — zero bytes with the
eof flag newly set — only when the read of the LAST file at its
current offset transfers nothing, and then the index has ended on the
last file (first conjunct).  When the current file is the last and its
read transfers nothing, the index stays on the last file, eof is set
and zero is returned (second conjunct).  When an earlier file
transfers nothing, Read advances the index past it and retries
instead of reporting EOF (third conjunct). -/
theorem c2_eof_only_after_last :
    (∀ (st : St) (n : Nat) (bytes : List Byte) (st' : St),
      Read st n = some (bytes, st') →
      st.filep < st.files.length →
      st'.b_eof = true → st.b_eof = false →
      bytes = [] ∧ st'.filep + 1 = st.files.length ∧
      ((fileAt st (st.files.length - 1)).drop
        (offAt st (st.files.length - 1))).take n = []) ∧
    (∀ (st : St) (n : Nat),
      st.b_pace_control = true →
      st.filep + 1 = st.files.length →
      readBytes st n = [] →
      Read st n = some ([], markEof (afterRead st n)) ∧
      (markEof (afterRead st n)).b_eof = true ∧
      (markEof (afterRead st n)).filep = st.filep) ∧
    (∀ (st : St) (n : Nat) (bytes : List Byte) (st' : St),
      st.b_pace_control = true →
      readBytes st n = [] →
      st.filep + 1 < st.files.length →
      Read st n = some (bytes, st') →
      st.filep < st'.filep) := by
  refine ⟨?_, ?_, ?_⟩
  · intro st n bytes st' heq hlt he1 he0
    exact readAux_eof _ st n bytes st' heq hlt he1 he0
  · intro st n hp hlast hb
    have hnx : ¬ ((afterRead st n).filep + 1 < (afterRead st n).files.length) := by
      rw [afterRead_filep, afterRead_files]
      omega
    unfold Read
    rw [ReadAux_pace _ _ _ hp, if_pos hb, if_neg hnx]
    exact ⟨rfl, rfl, by rw [markEof_filep, afterRead_filep]⟩
  · intro st n bytes st' hp hb hmid heq
    unfold Read at heq
    rw [ReadAux_pace _ _ _ hp, if_pos hb,
        if_pos (by rw [afterRead_filep, afterRead_files]; exact hmid)] at heq
    have := readAux_filep_mono _ _ _ _ _ heq
    rw [advance_filep, afterRead_filep] at this
    omega

/-- C2 witness: the exhausted single-file stream reports EOF staying
on its last (only) file. -/
theorem c2_witness :
    Read stW1 4 = some ([], markEof (afterRead stW1 4)) ∧
    (markEof (afterRead stW1 4)).b_eof = true ∧
    (markEof (afterRead stW1 4)).filep = stW1.filep :=
  c2_eof_only_after_last.2.1 stW1 4 rfl (by decide) (by decide)

/-! ## C6: periodic size re-validation -/

/-- C6 counterexample: the stream-mode stream stC6 has logical size 0
(its file was empty at open) and its file has since grown to 2 bytes;
the tenth read lands exactly on the re-stat period and transfers data,
yet — because the re-stat block is guarded by i_size != 0 — the
logical size stays 0 and the size table stays [0] instead of being
adjusted by the observed delta 2. -/
theorem c6_cex :
    ((Read stC6 2).map fun r => (r.1, r.2.i_size, r.2.sizev)) =
      some ([7, 8], 0, [0]) ∧
    ((0 : Int) ≠ 0 + (fstatSize stC6 0 - sizeAt stC6 0)) :=
  ⟨by decide, by decide⟩

theorem advancePos_isize (st : St) (m : Nat) : (advancePos st m).i_size = st.i_size := rfl

theorem advancePos_sizev (st : St) (m : Nat) : (advancePos st m).sizev = st.sizev := rfl

theorem restat_hit (st : St) (h1 : st.i_size ≠ 0)
    (h2 : st.i_nb_reads % INPUT_FSTAT_NB_READS = 0)
    (h3 : sizeAt st st.filep ≠ fstatSize st st.filep) :
    (restat st).i_size = st.i_size + fstatSize st st.filep - sizeAt st st.filep ∧
    (restat st).sizev = st.sizev.set st.filep (fstatSize st st.filep) := by
  unfold restat
  rw [if_pos ⟨h1, h2⟩, if_pos h3]
  exact ⟨rfl, rfl⟩

theorem restat_skip (st : St)
    (h : st.i_size = 0 ∨ st.i_nb_reads % INPUT_FSTAT_NB_READS ≠ 0 ∨
      sizeAt st st.filep = fstatSize st st.filep) :
    (restat st).i_size = st.i_size ∧ (restat st).sizev = st.sizev := by
  unfold restat
  by_cases hc : st.i_size ≠ 0 ∧ st.i_nb_reads % INPUT_FSTAT_NB_READS = 0
  · rw [if_pos hc]
    have h3 : sizeAt st st.filep = fstatSize st st.filep := by tauto
    rw [if_neg (not_ne_iff.mpr h3)]
    exact ⟨rfl, rfl⟩
  · rw [if_neg hc]
    exact ⟨rfl, rfl⟩

theorem afterRead_hit (st : St) (n : Nat) (h1 : st.i_size ≠ 0)
    (h2 : (st.i_nb_reads + 1) % INPUT_FSTAT_NB_READS = 0)
    (h3 : sizeAt st st.filep ≠ fstatSize st st.filep) :
    (afterRead st n).i_size = st.i_size + fstatSize st st.filep - sizeAt st st.filep ∧
    (afterRead st n).sizev = st.sizev.set st.filep (fstatSize st st.filep) := by
  unfold afterRead
  exact restat_hit _ h1 h2 h3

theorem afterRead_skip (st : St) (n : Nat)
    (h : st.i_size = 0 ∨ (st.i_nb_reads + 1) % INPUT_FSTAT_NB_READS ≠ 0 ∨
      sizeAt st st.filep = fstatSize st st.filep) :
    (afterRead st n).i_size = st.i_size ∧ (afterRead st n).sizev = st.sizev := by
  unfold afterRead
  exact restat_skip _ h

/-- C6 (amended): on a Read call whose first read attempt transfers
data, PROVIDED the logical size is nonzero: when the call count lands
on the fixed period, the current file is re-statted; a size change is
folded into the logical size by exactly the observed difference and
into the size table entry of the current index; an unchanged size
leaves both untouched.  Off-period calls leave both untouched, and —
the amendment — when the logical size is zero the periodic re-stat is
skipped entirely, so both are untouched even on the period. -/
theorem c6_size_drift :
    ∀ (st : St) (n : Nat) (bytes : List Byte) (st' : St),
      st.b_pace_control = true →
      readBytes st n ≠ [] →
      Read st n = some (bytes, st') →
      (st.i_size ≠ 0 ∧ (st.i_nb_reads + 1) % INPUT_FSTAT_NB_READS = 0 ∧
          sizeAt st st.filep ≠ fstatSize st st.filep →
        st'.i_size = st.i_size + fstatSize st st.filep - sizeAt st st.filep ∧
        st'.sizev = st.sizev.set st.filep (fstatSize st st.filep)) ∧
      (st.i_size ≠ 0 ∧ (st.i_nb_reads + 1) % INPUT_FSTAT_NB_READS = 0 ∧
          sizeAt st st.filep = fstatSize st st.filep →
        st'.i_size = st.i_size ∧ st'.sizev = st.sizev) ∧
      ((st.i_nb_reads + 1) % INPUT_FSTAT_NB_READS ≠ 0 →
        st'.i_size = st.i_size ∧ st'.sizev = st.sizev) ∧
      (st.i_size = 0 →
        st'.i_size = st.i_size ∧ st'.sizev = st.sizev) := by
  intro st n bytes st' hp hb heq
  unfold Read at heq
  rw [ReadAux_pace _ _ _ hp, if_neg hb] at heq
  simp only [Option.some.injEq, Prod.mk.injEq] at heq
  obtain ⟨hb1, hs1⟩ := heq
  subst hs1
  refine ⟨?_, ?_, ?_, ?_⟩
  · intro ⟨h1, h2, h3⟩
    obtain ⟨ha, hb'⟩ := afterRead_hit st n h1 h2 h3
    exact ⟨by rw [advancePos_isize]; exact ha, by rw [advancePos_sizev]; exact hb'⟩
  · intro ⟨h1, h2, h3⟩
    obtain ⟨ha, hb'⟩ := afterRead_skip st n (Or.inr (Or.inr h3))
    exact ⟨by rw [advancePos_isize]; exact ha, by rw [advancePos_sizev]; exact hb'⟩
  · intro h2
    obtain ⟨ha, hb'⟩ := afterRead_skip st n (Or.inr (Or.inl h2))
    exact ⟨by rw [advancePos_isize]; exact ha, by rw [advancePos_sizev]; exact hb'⟩
  · intro h1
    obtain ⟨ha, hb'⟩ := afterRead_skip st n (Or.inl h1)
    exact ⟨by rw [advancePos_isize]; exact ha, by rw [advancePos_sizev]; exact hb'⟩

/-- C6 witness: the grown file of stW6 is re-statted on the tenth read
and the logical size is adjusted by exactly the observed delta. -/
theorem c6_witness :
    stW6r.i_size = stW6.i_size + fstatSize stW6 stW6.filep - sizeAt stW6 stW6.filep ∧
    stW6r.sizev = stW6.sizev.set stW6.filep (fstatSize stW6 stW6.filep) :=
  (c6_size_drift stW6 1 [1] stW6r rfl (by decide) (by decide)).1
    ⟨by decide, by decide, by decide⟩

/-! ## C7: transient read errors -/

/-- C7 counterexample: a read attempt failing with the transient errno
EINTR produces the very same negative, distinct-from-EOF result (-1)
that a genuine failure (errno 5) produces — the transient condition is
not absorbed, only the user-visible fatal notification differs. -/
theorem c7_cex :
    (readFailStep stEx EINTR).ret = -1 ∧
    (readFailStep stEx 5).ret = -1 ∧
    (readFailStep stEx EINTR).notifiedFatal = false ∧
    (readFailStep stEx 5).notifiedFatal = true ∧
    ((-1 : Int) ≠ 0) :=
  ⟨by decide, by decide, by decide, by decide, by decide⟩

/-- C7 (amended): on a failing read attempt, the interrupted and
would-block errno values suppress the fatal user notification and
nothing else: every failure — transient or genuine — sleeps briefly
and returns the same -1 result, which is distinct from the EOF result
0; the eof flag and the logical position are untouched. -/
theorem c7_transient_errors (st : St) (e : Nat) :
    (readFailStep st e).ret = -1 ∧
    (readFailStep st e).ret ≠ 0 ∧
    (readFailStep st e).slept = true ∧
    ((readFailStep st e).notifiedFatal = false ↔ (e = EINTR ∨ e = EAGAIN)) ∧
    (readFailStep st e).st.b_eof = st.b_eof ∧
    (readFailStep st e).st.i_pos = st.i_pos := by
  refine ⟨rfl, by show (-1 : Int) ≠ 0; decide, rfl, ?_, ?_, ?_⟩
  · simp only [readFailStep, decide_eq_false_iff_not, not_not]
  · show (restat { st with i_nb_reads := st.i_nb_reads + 1 }).b_eof = st.b_eof
    rw [restat_eof]
  · show (restat { st with i_nb_reads := st.i_nb_reads + 1 }).i_pos = st.i_pos
    rw [restat_pos]

/-! ## C8: cooperative cancellation in the non-blocking strategies -/

/-- C8 counterexample: in the kfir busy-retry mode with the
cancellation flag set, the read of the exhausted first file observes
the flag and leaves the retry loop with zero — but Read then proceeds
with EOF chaining, advances to the second file and returns its two
bytes instead of returning zero bytes immediately. -/
theorem c8_cex :
    ((Read stK 4).map Prod.fst) = some [7, 8] ∧ [7, 8] ≠ ([] : List Byte) :=
  ⟨by decide, by decide⟩

/-- C8 (amended): in the polled strategy the cancellation flag is
checked before any wait and Read returns immediately with zero bytes
and the state completely unchanged.  In the kfir busy-retry strategy
the flag only breaks the retry loop: Read still terminates (never
retries forever), but it falls through to the EOF-chaining logic and
may return data from a later file or set the eof flag. -/
theorem c8_cancellation :
    (∀ (st : St) (n : Nat),
      st.b_pace_control = false → st.b_kfir = false → st.b_die = true →
      Read st n = some ([], st)) ∧
    (∀ (st : St) (n : Nat),
      st.b_pace_control = false → st.b_kfir = true → st.b_die = true →
      st.filep < st.files.length →
      (Read st n).isSome = true) := by
  constructor
  · intro st n h1 h2 h3
    unfold Read
    rw [ReadAux_succ, if_pos ⟨h1, h2, h3⟩]
  · intro st n h1 h2 h3 hlt
    unfold Read
    exact readAux_kfir_die _ st n h1 h2 h3 hlt (by omega)

/-- C8 witness: the polled stream stP with the flag set returns zero
bytes with unchanged state; the kfir stream stK still terminates. -/
theorem c8_witness :
    Read stP 3 = some ([], stP) ∧ (Read stK 4).isSome = true :=
  ⟨c8_cancellation.1 stP 3 rfl rfl rfl,
   c8_cancellation.2 stK 4 rfl rfl rfl (by decide)⟩

/-! ## C9: only the newly selected descriptor is repositioned -/

/-- C9 (confirmed): Seek repositions only the descriptor of the newly
selected current file — every other descriptor keeps its previous
offset (first conjunct).  Read never repositions any descriptor: all
descriptors other than the final current one keep their offsets, and a
nonzero transfer reads the final current file from whatever offset its
descriptor already had — in particular the automatic advance across a
file boundary does not rewind the next file to its start — advancing
only that descriptor, by the transfer length (second conjunct). -/
theorem c9_descriptor_frame :
    (∀ (st : St) (p : Int) (st' : St), Seek st p = some st' →
      ∀ j, j ≠ st'.filep → offAt st' j = offAt st j) ∧
    (∀ (st : St) (n : Nat) (bytes : List Byte) (st' : St),
      Read st n = some (bytes, st') →
      st.filep < st.files.length →
      st.offsets.length = st.files.length →
      (∀ j, j ≠ st'.filep → offAt st' j = offAt st j) ∧
      (bytes ≠ [] →
        bytes = ((fileAt st st'.filep).drop (offAt st st'.filep)).take n ∧
        offAt st' st'.filep = offAt st st'.filep + bytes.length)) := by
  constructor
  · intro st p st' heq j hj
    unfold Seek at heq
    cases hloc : locate (seekTarget st p) st.sizev with
    | none => rw [hloc] at heq; exact Option.noConfusion heq
    | some pr =>
      obtain ⟨i, intra⟩ := pr
      rw [hloc] at heq
      simp only [Option.some.injEq] at heq
      subst heq
      by_cases hneg : intra < 0
      · unfold offAt
        show (if intra < 0 then st.offsets else st.offsets.set i intra.toNat).getD j 0 =
          st.offsets.getD j 0
        rw [if_pos hneg]
      · unfold offAt
        show (if intra < 0 then st.offsets else st.offsets.set i intra.toNat).getD j 0 =
          st.offsets.getD j 0
        rw [if_neg hneg]
        exact getD_set_ne st.offsets i j intra.toNat (Ne.symm hj)
  · intro st n bytes st' heq hlt hlen
    unfold Read at heq
    obtain ⟨_, h2, h3⟩ := readAux_frame _ st n bytes st' heq hlt hlen
    exact ⟨h2, h3⟩

/-- C9 witness: Seek stEx 5 selects file 1 and leaves file 0's
descriptor offset unchanged; Read stEx 3 leaves file 1's descriptor
offset unchanged. -/
theorem c9_witness :
    offAt stW9 0 = offAt stEx 0 ∧ offAt stR 1 = offAt stEx 1 :=
  ⟨c9_descriptor_frame.1 stEx 5 stW9 (by decide) 0 (by decide),
   (c9_descriptor_frame.2 stEx 3 [97, 98, 99] stR (by decide) (by decide)
     (by decide)).1 1 (by decide)⟩

theorem seekInit_decide (mode : Mode) : seekInit mode = decide (mode = Mode.file) := by
  cases mode <;> rfl

theorem openGo_ok_seek : ∀ (paths : List PathSpec) (acc : OpenAcc)
    (sv : List Int) (isz : Int) (bsk : Bool) (fc : Nat),
    openGo paths acc = OpenResult.ok sv isz bsk fc →
    bsk = (acc.seek && paths.all pathConforming) := by
  intro paths
  induction paths with
  | nil =>
    intro acc sv isz bsk fc h
    unfold openGo at h
    by_cases hc : acc.seek = true ∧ acc.szSum = 0
    · rw [if_pos hc] at h
      exact OpenResult.noConfusion h
    · rw [if_neg hc] at h
      obtain ⟨_, _, h3, _⟩ := OpenResult.ok.inj h
      simp [← h3]
  | cons p rest ih =>
    intro acc sv isz bsk fc h
    cases p with
    | none =>
      unfold openGo at h
      exact OpenResult.noConfusion h
    | some f =>
      unfold openGo at h
      by_cases hd : f.kind = FKind.dir
      · rw [if_pos hd] at h
        exact OpenResult.noConfusion h
      · rw [if_neg hd] at h
        have := ih _ sv isz bsk fc h
        rw [this]
        show ((acc.seek && conforming f) && rest.all pathConforming) =
          (acc.seek && (some f :: rest).all pathConforming)
        rw [List.all_cons, Bool.and_assoc]
        rfl

theorem openGo_err_zero : ∀ (paths : List PathSpec) (acc : OpenAcc),
    acc.openFds = acc.filec →
    ∀ k, openGo paths acc = OpenResult.err k → k = 0 := by
  intro paths
  induction paths with
  | nil =>
    intro acc hinv k h
    unfold openGo at h
    by_cases hc : acc.seek = true ∧ acc.szSum = 0
    · rw [if_pos hc] at h
      obtain h1 := OpenResult.err.inj h
      omega
    · rw [if_neg hc] at h
      exact OpenResult.noConfusion h
  | cons p rest ih =>
    intro acc hinv k h
    cases p with
    | none =>
      unfold openGo at h
      obtain h1 := OpenResult.err.inj h
      omega
    | some f =>
      unfold openGo at h
      by_cases hd : f.kind = FKind.dir
      · rw [if_pos hd] at h
        obtain h1 := OpenResult.err.inj h
        omega
      · rw [if_neg hd] at h
        exact ih _ (by simp [hinv]) k h

theorem openGo_err_iff : ∀ (paths : List PathSpec) (acc : OpenAcc),
    (openGo paths acc).isErr =
      (paths.any badPath ||
        ((acc.seek && paths.all pathConforming) &&
          decide (acc.szSum + sizeSum paths = 0))) := by
  intro paths
  induction paths with
  | nil =>
    intro acc
    unfold openGo
    by_cases hc : acc.seek = true ∧ acc.szSum = 0
    · rw [if_pos hc]
      simp [OpenResult.isErr, sizeSum, hc.1, hc.2]
    · rw [if_neg hc]
      simp only [OpenResult.isErr, List.any_nil, List.all_nil, Bool.and_true,
        Bool.false_or, sizeSum, List.map_nil, List.sum_nil, Int.add_zero]
      by_cases hs : acc.seek = true
      · have hz : ¬ acc.szSum = 0 := fun h => hc ⟨hs, h⟩
        simp [hs, hz]
      · have hf : acc.seek = false := by
          revert hs
          cases acc.seek <;> simp
        simp [hf]
  | cons p rest ih =>
    intro acc
    cases p with
    | none =>
      unfold openGo
      simp [OpenResult.isErr, badPath]
    | some f =>
      unfold openGo
      by_cases hd : f.kind = FKind.dir
      · rw [if_pos hd]
        simp [OpenResult.isErr, badPath, hd]
      · rw [if_neg hd]
        rw [ih]
        have hbp : badPath (some f) = false := by
          simp [badPath, hd]
        have hadd : acc.szSum + f.size + sizeSum rest = acc.szSum + sizeSum (some f :: rest) := by
          show _ = acc.szSum + (f.size + sizeSum rest)
          ring
        simp only [List.any_cons, List.all_cons, hbp, Bool.false_or, hadd,
          pathConforming, Bool.and_assoc]

/-! ## C4: the seekability flag -/

/-- C4 (confirmed): when Open succeeds, the stream is marked seekable
exactly when the access mode is the standard file mode AND every
underlying file is a regular file, a block device, or a character
device of nonzero size (any streaming or device-workaround mode, and
any single non-conforming file, makes the whole stream non-seekable);
and both the can-seek and the can-fast-seek control queries report
this same flag. -/
theorem c4_seekable_flag :
    (∀ (mode : Mode) (paths : List PathSpec) (sv : List Int) (isz : Int)
        (bsk : Bool) (fc : Nat),
      openAll mode paths = OpenResult.ok sv isz bsk fc →
      bsk = (decide (mode = Mode.file) && paths.all pathConforming)) ∧
    (∀ (st : St) (cd : Int),
      Control st cd Query.canSeek = CtrlAns.ansBool st.b_seekable ∧
      Control st cd Query.canFastseek = CtrlAns.ansBool st.b_seekable) := by
  constructor
  · intro mode paths sv isz bsk fc h
    unfold openAll at h
    have := openGo_ok_seek paths _ sv isz bsk fc h
    rw [this]
    show ((seekInit mode) && paths.all pathConforming) = _
    rw [seekInit_decide]
  · intro st cd
    exact ⟨rfl, rfl⟩

/-- C4 witness: a standard-mode single regular file yields a seekable
stream, and the control queries report the stored flag. -/
theorem c4_witness :
    (true : Bool) =
      (decide (Mode.file = Mode.file) &&
        [some (⟨FKind.reg, 3⟩ : PathFile)].all pathConforming) ∧
    Control stEx 7 Query.canSeek = CtrlAns.ansBool stEx.b_seekable :=
  ⟨c4_seekable_flag.1 Mode.file [some ⟨FKind.reg, 3⟩] [3] 3 true 1 (by decide),
   (c4_seekable_flag.2 stEx 7).1⟩

/-! ## C5: the failure surface of Open -/

/-- C5 (confirmed): Open fails — with the single generic error —
exactly when some path cannot be opened or resolves to a directory, or
all paths open but the stream is seekable with total size zero; and on
every failure the number of descriptors still open when the error is
returned is zero (the directory descriptor is closed in the probe loop
and every stored descriptor is closed by Close before the error
propagates). -/
theorem c5_open_failure :
    ∀ (mode : Mode) (paths : List PathSpec),
      ((openAll mode paths).isErr =
        (paths.any badPath ||
          ((seekInit mode && paths.all pathConforming) &&
            decide (sizeSum paths = 0)))) ∧
      (∀ k, openAll mode paths = OpenResult.err k → k = 0) := by
  intro mode paths
  constructor
  · have h := openGo_err_iff paths
      { openFds := 0, filec := 0, szSum := 0, seek := seekInit mode, sizevAcc := [] }
    unfold openAll
    simpa using h
  · intro k h
    unfold openAll at h
    exact openGo_err_zero paths _ rfl k h

/-- C5 witness: an unopenable primary path makes Open fail with no
descriptor left open. -/
theorem c5_witness :
    (openAll Mode.file [(none : PathSpec)]).isErr =
      ([(none : PathSpec)].any badPath ||
        ((seekInit Mode.file && [(none : PathSpec)].all pathConforming) &&
          decide (sizeSum [(none : PathSpec)] = 0))) ∧
    (0 : Nat) = 0 :=
  ⟨(c5_open_failure Mode.file [none]).1,
   (c5_open_failure Mode.file [none]).2 0 (by decide)⟩

/-- C1 witness: the amended theorem applied to the fresh [3,5] stream
at target 4 with a 2-byte request. -/
theorem c1_witness :
    ∃ st1 bytes st', Seek stEx 4 = some st1 ∧ Read st1 2 = some (bytes, st') ∧
      (∃ k, k ≤ 2 ∧ bytes = ((stEx.files.flatten.drop (4 : Int).toNat).take k)) ∧
      (0 < 2 → (4 : Int) < stEx.i_size → bytes ≠ []) :=
  c1_seek_then_read.1 stEx 4 2 rfl (by decide) (by decide) (by decide) (by decide)
    (by decide) (by decide) (by decide) (by decide)
    (by
      intro li off h j hj
      have h14 : locate 4 stEx.sizev = some (1, 1) := by decide
      rw [h14] at h
      injection h with h1
      injection h1 with hli hoff
      subst hli
      unfold offAt
      apply List.getD_eq_default
      show 2 ≤ j
      omega)

end VlcFileAccess
